import Mathlib

/-!
Verification of the morse-audio-decoder core against its specification.

The Python source (morse_audio_decoder/morse.py, morse_audio_decoder/processing.py)
is shallowly embedded below: numpy arrays become `List Int` / `List ℕ` / `List ℚ`,
Python exceptions become `Except PyError`, and the external scikit-learn KMeans
call is represented by its result (a label assignment plus cluster centres),
since sklearn is a third-party library, not repository code.  Everything after
the KMeans call is translated statement by statement from the source.
-/

/-- Python exception kinds that the embedded code can surface. -/
inductive PyError where
  | notImplementedError
  | typeError
  | indexError
  | valueError
  deriving Repr, DecidableEq

namespace MorseDecoder

/-! ## Run-length detection: `MorseCode._on_off_samples` (morse.py lines 81-108) -/

/-- Embeds `np.diff(self.data)`: first differences `data[i+1] - data[i]`. -/
def npDiff (data : List Int) : List Int :=
  List.zipWith (fun a b => b - a) data data.tail

/-- Embeds `np.nonzero(cond)[0]` over a 1-D array: the ascending list of indices
(as integers, since the caller later inserts `-1`) at which `p` holds. -/
def nonzeroIdx (p : Int → Bool) : List Int → List Int
  | [] => []
  | a :: l =>
      if p a then 0 :: (nonzeroIdx p l).map (· + 1)
      else (nonzeroIdx p l).map (· + 1)

/-- Embeds `rising_idx = np.nonzero(square_diff == 1)[0]` (morse.py line 94). -/
def risingIdx (data : List Int) : List Int :=
  nonzeroIdx (fun d => d == 1) (npDiff data)

/-- Embeds `falling_idx = np.nonzero(square_diff == -1)[0]` (morse.py line 95). -/
def fallingIdx (data : List Int) : List Int :=
  nonzeroIdx (fun d => d == -1) (npDiff data)

/-- Embeds morse.py lines 97-99: when the data starts in the ON state
(`falling_idx[0] < rising_idx[0]`), a rising edge is synthesized at `-1`.
When either edge list is empty the Python code raises IndexError before this
point; the unmodified list is returned here and `onOffSamples` reports the
error. -/
def fixedRising (data : List Int) : List Int :=
  match (risingIdx data).head?, (fallingIdx data).head? with
  | some rh, some fh =>
      if fh < rh then -1 :: risingIdx data else risingIdx data
  | _, _ => risingIdx data

/-- Embeds morse.py lines 101-103: when the data ends in the ON state
(`rising_idx[-1] > falling_idx[-1]`, with `rising_idx` already fixed), a
falling edge is synthesized at index `len(self.data) - 1`. -/
def fixedFalling (data : List Int) : List Int :=
  match (risingIdx data).head?, (fallingIdx data).head? with
  | some _, some _ =>
      if (fixedRising data).getLastD 0 > (fallingIdx data).getLastD 0 then
        fallingIdx data ++ [(data.length : Int) - 1]
      else fallingIdx data
  | _, _ => fallingIdx data

/-- Embeds `MorseCode._on_off_samples` (morse.py lines 92-108).  Accessing
`falling_idx[0]` / `rising_idx[0]` on an empty index array raises IndexError.
`on_samples = falling_idx - rising_idx` and
`off_samples = rising_idx[1:] - falling_idx[:len(falling_idx) - 1]` are numpy
element-wise subtractions, which demand equal shapes; for binary input, equal
lengths are proved below, so the mismatch branch (numpy broadcasting rules)
is unreachable in the claims' domain and is reported as ValueError. -/
def onOffSamples (data : List Int) : Except PyError (List Int × List Int) :=
  match (risingIdx data).head?, (fallingIdx data).head? with
  | some _, some _ =>
      let r1 := fixedRising data
      let f1 := fixedFalling data
      if r1.length = f1.length then
        Except.ok (List.zipWith (fun f r => f - r) f1 r1,
                   List.zipWith (fun r f => r - f) r1.tail f1.dropLast)
      else Except.error PyError.valueError
  | _, _ => Except.error PyError.indexError

/-- A binary keying array: every sample is 0 or 1 (output of `squared_signal`). -/
def Binary (l : List Int) : Prop := ∀ x ∈ l, x = 0 ∨ x = 1

instance : DecidablePred Binary := fun l =>
  List.decidableBAll (fun x => x = 0 ∨ x = 1) l

/-! ## Symbol classification: `MorseCode._dash_dot_characters` (morse.py lines 110-135)

The sklearn call `KMeans(n_clusters=2, random_state=0).fit(column_vec)` is
external library code; its result is represented by the produced label array
(`clustering.labels_`, one label per ON-duration) and the two cluster centres
(`clustering.cluster_centers_`).  Everything after the `fit` call is
translated from the source. -/

/-- Result of the external 2-cluster KMeans fit over the ON-durations:
`labels` is `clustering.labels_` (values in {0, 1}), `c0`/`c1` are the two
entries of `clustering.cluster_centers_.flatten()`. -/
structure KMeans2 where
  labels : List ℕ
  c0 : ℚ
  c1 : ℚ
  deriving Repr, DecidableEq

/-- Embeds `np.argsort` over the flattened 2-element centre array (stable;
for two elements any tie keeps the original order). -/
def argsort2 (c0 c1 : ℚ) : List ℕ :=
  if c1 < c0 then [1, 0] else [0, 1]

/-- Embeds `MorseCode._dash_dot_characters` after the KMeans fit (morse.py
lines 128-135): sort the centres, take `dot_label = cluster_sort_idx.index(0)`
and `dash_label = cluster_sort_idx.index(1)`, then map every label through the
Python dict `{dot_label: ".", dash_label: "-"}` with `dict.get` (which yields
`None`, i.e. `none`, for a label outside the dict — `np.vectorize` stores the
`None` rather than raising). -/
def dashDotCharacters (km : KMeans2) : List (Option String) :=
  let clusterSortIdx := argsort2 km.c0 km.c1
  let dotLabel := clusterSortIdx.indexOf 0
  let dashLabel := clusterSortIdx.indexOf 1
  km.labels.map (fun lab =>
    if lab = dotLabel then some "." else if lab = dashLabel then some "-" else none)

/-! ## Space classification: `MorseCode._break_spaces` (morse.py lines 137-174) -/

/-- Result of the external 3-cluster KMeans fit over the OFF-durations:
`labels` is `clustering.labels_` (values in {0, 1, 2}), `c0`/`c1`/`c2` are the
entries of `clustering.cluster_centers_.flatten()`. -/
structure KMeans3 where
  labels : List ℕ
  c0 : ℚ
  c1 : ℚ
  c2 : ℚ
  deriving Repr, DecidableEq

/-- Embeds `np.argsort` over the flattened 3-element centre array, stable in
case of ties (k-means centres of three genuinely distinct duration classes are
distinct, so ties never occur in the claims' domain). -/
def argsort3 (c0 c1 c2 : ℚ) : List ℕ :=
  if c0 ≤ c1 then
    if c1 ≤ c2 then [0, 1, 2]
    else if c0 ≤ c2 then [0, 2, 1]
    else [2, 0, 1]
  else
    if c0 ≤ c2 then [1, 0, 2]
    else if c1 ≤ c2 then [1, 2, 0]
    else [2, 1, 0]

/-- Embeds `np.nonzero(cond)[0]` over a 1-D array of labels, as natural-number
indices. -/
def natNonzeroIdx (p : ℕ → Bool) : List ℕ → List ℕ
  | [] => []
  | a :: l =>
      if p a then 0 :: (natNonzeroIdx p l).map (· + 1)
      else (natNonzeroIdx p l).map (· + 1)

/-- Embeds `MorseCode._break_spaces` after the KMeans fit (morse.py lines
160-174), statement by statement:
`intra_space_label = cluster_sort_idx.index(0)`;
`char_break_idx = np.nonzero(labels != intra_space_label)[0] + 1`;
`char_or_word_space_arr = labels[labels != intra_space_label]`;
`word_space_label = cluster_sort_idx.index(2)`;
`word_space_idx = np.nonzero(char_or_word_space_arr == word_space_label)[0] + 1`. -/
def breakSpaces (km : KMeans3) : List ℕ × List ℕ :=
  let clusterSortIdx := argsort3 km.c0 km.c1 km.c2
  let intraSpaceLabel := clusterSortIdx.indexOf 0
  let charBreakIdx := (natNonzeroIdx (fun lab => lab ≠ intraSpaceLabel) km.labels).map (· + 1)
  let charOrWordSpaceArr := km.labels.filter (fun lab => lab ≠ intraSpaceLabel)
  let wordSpaceLabel := clusterSortIdx.indexOf 2
  let wordSpaceIdx :=
    (natNonzeroIdx (fun lab => lab = wordSpaceLabel) charOrWordSpaceArr).map (· + 1)
  (charBreakIdx, wordSpaceIdx)

/-- Follows the spec's words (§4.4), for comparison with `breakSpaces`:
"Sort clusters by centroid value ascending: smallest = intra-character gap
(no break) ... Positions whose OFF-run belongs to the 'middle' or 'largest'
cluster become character-break indices; positions in the 'largest' cluster,
re-indexed within the reduced character-break list, become word-break
indices."  The smallest / largest cluster labels are the first / last entries
of the ascending argsort. -/
def specBreakSpaces (km : KMeans3) : List ℕ × List ℕ :=
  let clusterSortIdx := argsort3 km.c0 km.c1 km.c2
  let smallestLabel := clusterSortIdx.getD 0 0
  let largestLabel := clusterSortIdx.getD 2 0
  let charBreakIdx := (natNonzeroIdx (fun lab => lab ≠ smallestLabel) km.labels).map (· + 1)
  let charOrWordSpaceArr := km.labels.filter (fun lab => lab ≠ smallestLabel)
  let wordSpaceIdx :=
    (natNonzeroIdx (fun lab => lab = largestLabel) charOrWordSpaceArr).map (· + 1)
  (charBreakIdx, wordSpaceIdx)

/-! ## Segmentation: `MorseCode._morse_words` (morse.py lines 176-209) -/

/-- Embeds the Python slice `l[i:j]` for 0 ≤ i, j (empty when j ≤ i, clamped
at the list's end). -/
def pySlice (l : List α) (i j : ℕ) : List α := (l.drop i).take (j - i)

/-- Embeds `MorseCode._morse_words` (morse.py lines 199-209): build
`char_start_idx = [0] + char_break_idx`, `char_end_idx = char_break_idx + [len]`,
join each symbol slice into a morse-character string, then split the character
list into words the same way with `word_space_idx`. -/
def morseWords (rawDashDot : List String) (charBreakIdx wordSpaceIdx : List ℕ) :
    List (List String) :=
  let charStartIdx := 0 :: charBreakIdx
  let charEndIdx := charBreakIdx ++ [rawDashDot.length]
  let morseCharacters :=
    (charStartIdx.zip charEndIdx).map
      (fun p => String.join (pySlice rawDashDot p.1 p.2))
  let wordStartIdx := 0 :: wordSpaceIdx
  let wordEndIdx := wordSpaceIdx ++ [morseCharacters.length]
  (wordStartIdx.zip wordEndIdx).map (fun p => pySlice morseCharacters p.1 p.2)

/-! ## Translation: `MorseCode._translate` (morse.py lines 211-223) and the
character table `MorseCode.morse_to_char` (morse.py lines 61-79) -/

/-- Modelled from the spec: the file `morse.ini` holding the character table is
not part of the sources at hand (only `morse.py` lines 75-78 read it), so the
table is modelled from spec §4.7: "a fixed set of {Morse-string → character}
entries covering digits 0–9, letters A–Z, and a terminal punctuation mark (at
minimum, full stop)", using the standard international Morse encodings pinned
by the repository tests (e.g. ".... . .-.. .-.. ---" for HELLO). -/
def morseToChar : List (String × String) :=
  [("-----", "0"), (".----", "1"), ("..---", "2"), ("...--", "3"), ("....-", "4"),
   (".....", "5"), ("-....", "6"), ("--...", "7"), ("---..", "8"), ("----.", "9"),
   (".-", "A"), ("-...", "B"), ("-.-.", "C"), ("-..", "D"), (".", "E"),
   ("..-.", "F"), ("--.", "G"), ("....", "H"), ("..", "I"), (".---", "J"),
   ("-.-", "K"), (".-..", "L"), ("--", "M"), ("-.", "N"), ("---", "O"),
   (".--.", "P"), ("--.-", "Q"), (".-.", "R"), ("...", "S"), ("-", "T"),
   ("..-", "U"), ("...-", "V"), (".--", "W"), ("-..-", "X"), ("-.--", "Y"),
   ("--..", "Z"), (".-.-.-", ".")]

/-- Embeds Python `char_dict.get(j)`: `some` of the mapped value when the key
is present, `none` otherwise. -/
def dictGet (table : List (String × String)) (key : String) : Option String :=
  (table.find? (fun e => e.1 = key)).map Prod.snd

/-- Embeds `MorseCode._translate` (morse.py lines 211-223).  The dict `char_dict`
is the character table; `char_lists = [[char_dict.get(j) for j in i] for i in
morse_words]` holds `None` for every unknown morse string, and the subsequent
`"".join(word)` raises `TypeError` as soon as a `None` is joined; otherwise the
words are joined with `" ".join`. -/
def translate (table : List (String × String)) (morseWordsIn : List (List String)) :
    Except PyError String :=
  let charLists := morseWordsIn.map (fun i => i.map (fun j => dictGet table j))
  if charLists.any (fun word => word.any Option.isNone) then
    Except.error PyError.typeError
  else
    Except.ok (String.intercalate " "
      (charLists.map (fun word => String.join (word.map (fun c => c.getD "")))))

/-! ## `MorseCode.decode` (morse.py lines 53-59) -/

/-- The `MorseCode` instance state: the 1-D binary array `self.data`. -/
structure MorseCode where
  data : List Int
  deriving Repr, DecidableEq

/-- Embeds `MorseCode.decode` (morse.py lines 53-59).  The method body is
`raise NotImplementedError()`: it fails on every instance. -/
def MorseCode.decode (_ : MorseCode) : Except PyError String :=
  Except.error PyError.notImplementedError

/-! ## Envelope extraction: `smoothed_power` (processing.py lines 6-39)

Floating-point envelope values are not modelled; the claims about
`smoothed_power` concern its dtype handling (lines 28-31 and 39) and its
error/length behaviour, both of which are discrete. -/

/-- The numpy dtypes relevant to 1-D audio data. -/
inductive NpDType where
  | int8 | int16 | int32 | int64
  | float16 | float32 | float64
  deriving Repr, DecidableEq

/-- Embeds numpy `dtype.itemsize`: the element width in bytes. -/
def NpDType.itemsize : NpDType → ℕ
  | .int8 => 1
  | .int16 => 2
  | .int32 => 4
  | .int64 => 8
  | .float16 => 2
  | .float32 => 4
  | .float64 => 8

/-- Embeds `np.issubdtype(dtype, np.integer)`. -/
def NpDType.isInteger : NpDType → Bool
  | .int8 | .int16 | .int32 | .int64 => true
  | _ => false

/-- True for the floating-point dtypes. -/
def NpDType.isFloating : NpDType → Bool
  | .float16 | .float32 | .float64 => true
  | _ => false

/-- Embeds processing.py lines 28-31, the dtype of `secure_data`:
`data.astype(np.int32) if data.itemsize < 32 else data` for integer input,
`data.astype(np.float32) if data.itemsize < 32 else data` otherwise.
Note that `itemsize` counts bytes, so every dtype above satisfies
`itemsize < 32` and 64-bit inputs are narrowed to 32 bits. -/
def secureDtype (d : NpDType) : NpDType :=
  if d.isInteger then (if d.itemsize < 32 then NpDType.int32 else d)
  else (if d.itemsize < 32 then NpDType.float32 else d)

/-- The dtype of the array returned by `smoothed_power` (processing.py line 39):
whatever dtype `np.sqrt(np.convolve(...))` produced, the trailing
`.astype(data.dtype)` casts the result back to the input dtype. -/
def smoothedPowerDtype (d : NpDType) : NpDType :=
  d

/-- Embeds the length/error behaviour of `np.convolve(a, v, mode)` for
`mode="valid"` with `len(a) = n`, `len(v) = m`: numpy raises ValueError when
either operand is empty, otherwise it swaps the operands so that the longer
one is convolved with the shorter, and the valid-mode output has length
`max(n, m) - min(n, m) + 1`.  In particular an input shorter than the window
is accepted, with the roles of signal and window exchanged. -/
def convolveValidLen (n m : ℕ) : Except PyError ℕ :=
  if n = 0 then Except.error PyError.valueError
  else if m = 0 then Except.error PyError.valueError
  else Except.ok (max n m - min n m + 1)

/-- The length/error behaviour of `smoothed_power(data, window_size)` with
`mode="valid"` (processing.py line 39): `np.hanning(window_size)` has length
`window_size`, squaring preserves the length, and the result length is that of
the valid-mode convolution. -/
def smoothedPowerValidLen (dataLen windowSize : ℕ) : Except PyError ℕ :=
  convolveValidLen dataLen windowSize

/-- Follows the claim text of §4.6: join the translated characters within each
word with no separator and join the words with a single space. -/
def specJoinTranslation (table : List (String × String))
    (morseWordsIn : List (List String)) : String :=
  String.intercalate " "
    (morseWordsIn.map (fun word => String.join (word.map (fun c => (dictGet table c).getD ""))))

end MorseDecoder

namespace MorseDecoder

/-! ## Supporting lemmas: edge alternation in a binary sequence -/

/-- 1 when the keying sequence starts in the ON state, else 0. -/
def headBit (l : List Int) : ℕ := if l.head? = some 1 then 1 else 0

/-- 1 when the keying sequence ends in the ON state, else 0. -/
def lastBit (l : List Int) : ℕ := if l.getLast? = some 1 then 1 else 0

theorem nonzeroIdx_nonneg (p : Int → Bool) :
    ∀ l : List Int, ∀ x ∈ nonzeroIdx p l, 0 ≤ x := by
  intro l
  induction l with
  | nil => simp [nonzeroIdx]
  | cons a t ih =>
    intro x hx
    unfold nonzeroIdx at hx
    split at hx
    · rcases List.mem_cons.mp hx with rfl | hx'
      · exact le_refl 0
      · obtain ⟨y, hy, rfl⟩ := List.mem_map.mp hx'
        have := ih y hy
        omega
    · obtain ⟨y, hy, rfl⟩ := List.mem_map.mp hx
      have := ih y hy
      omega

theorem mem_of_head?_eq_some {l : List Int} {x : Int} (h : l.head? = some x) :
    x ∈ l := by
  cases l with
  | nil => cases h
  | cons a t =>
    rw [List.head?_cons] at h
    injection h with h
    exact h ▸ List.mem_cons_self a t

theorem mem_of_getLast?_eq_some : ∀ {l : List Int} {x : Int},
    l.getLast? = some x → x ∈ l
  | [], _, h => by cases h
  | [a], x, h => by
    have h' : some a = some x := h
    injection h' with h'
    exact h' ▸ List.mem_cons_self a []
  | _ :: b :: t, x, h => by
    rw [List.getLast?_cons_cons] at h
    exact List.mem_cons_of_mem _ (mem_of_getLast?_eq_some h)

theorem exists_head?_of_ne_nil {l : List Int} (h : l ≠ []) :
    ∃ x, l.head? = some x := by
  cases l with
  | nil => exact absurd rfl h
  | cons a t => exact ⟨a, rfl⟩

theorem exists_getLast?_of_ne_nil : ∀ {l : List Int}, l ≠ [] →
    ∃ x, l.getLast? = some x
  | [], h => absurd rfl h
  | [a], _ => ⟨a, rfl⟩
  | _ :: b :: t, _ => by
    obtain ⟨x, hx⟩ := exists_getLast?_of_ne_nil (l := b :: t) (by simp)
    exact ⟨x, by rw [List.getLast?_cons_cons]; exact hx⟩

theorem getLastD_of_getLast?_eq_some {l : List Int} {x : Int}
    (h : l.getLast? = some x) (d : Int) : l.getLastD d = x := by
  rw [List.getLastD_eq_getLast?, h]
  rfl

theorem risingIdx_cons₂ (a b : Int) (t : List Int) :
    risingIdx (a :: b :: t) =
      if (b - a) == 1 then 0 :: (risingIdx (b :: t)).map (· + 1)
      else (risingIdx (b :: t)).map (· + 1) := rfl

theorem fallingIdx_cons₂ (a b : Int) (t : List Int) :
    fallingIdx (a :: b :: t) =
      if (b - a) == -1 then 0 :: (fallingIdx (b :: t)).map (· + 1)
      else (fallingIdx (b :: t)).map (· + 1) := rfl

theorem lastBit_cons₂ (a b : Int) (t : List Int) :
    lastBit (a :: b :: t) = lastBit (b :: t) := by
  unfold lastBit
  rw [List.getLast?_cons_cons]

theorem binary_tail {a : Int} {t : List Int} (hb : Binary (a :: t)) :
    Binary t := fun x hx => hb x (List.mem_cons_of_mem a hx)

theorem headBit_eq_zero {l : List Int} (h : l.head? = some 0) : headBit l = 0 := by
  unfold headBit
  rw [h, if_neg (by decide)]

theorem headBit_eq_one {l : List Int} (h : l.head? = some 1) : headBit l = 1 := by
  unfold headBit
  rw [h, if_pos rfl]

theorem lastBit_eq_zero {l : List Int} (h : l.getLast? = some 0) : lastBit l = 0 := by
  unfold lastBit
  rw [h, if_neg (by decide)]

theorem lastBit_eq_one {l : List Int} (h : l.getLast? = some 1) : lastBit l = 1 := by
  unfold lastBit
  rw [h, if_pos rfl]

/-- Edge-count balance: the number of rising edges plus one (when the data
starts ON) equals the number of falling edges plus one (when the data ends
ON). -/
theorem length_rising_balance : ∀ (l : List Int), Binary l →
    (risingIdx l).length + headBit l = (fallingIdx l).length + lastBit l
  | [] => fun _ => rfl
  | [a] => fun _ => by
    simp [risingIdx, fallingIdx, npDiff, nonzeroIdx, headBit, lastBit]
  | a :: b :: t => fun hb => by
    have ih := length_rising_balance (b :: t) (binary_tail hb)
    have hA : a = 0 ∨ a = 1 := hb a (List.mem_cons_self a _)
    have hB : b = 0 ∨ b = 1 := hb b (List.mem_cons_of_mem a (List.mem_cons_self b t))
    rcases hA with rfl | rfl <;> rcases hB with rfl | rfl <;>
      simp [risingIdx_cons₂, fallingIdx_cons₂, headBit, lastBit_cons₂,
        List.head?_cons] at ih ⊢ <;>
      omega

/-- Edge order at the start: when the data begins OFF the first edge is
rising, when it begins ON the first edge is falling. -/
theorem head_edge_order : ∀ (l : List Int), Binary l →
    ∀ r, (risingIdx l).head? = some r → ∀ f, (fallingIdx l).head? = some f →
      (l.head? = some 0 → r < f) ∧ (l.head? = some 1 → f < r)
  | [] => by
    intro _ r hr
    simp [risingIdx, npDiff, nonzeroIdx] at hr
  | [a] => by
    intro _ r hr
    simp [risingIdx, npDiff, nonzeroIdx] at hr
  | a :: b :: t => by
    intro hb r hr f hf
    have hA : a = 0 ∨ a = 1 := hb a (List.mem_cons_self a _)
    have hB : b = 0 ∨ b = 1 := hb b (List.mem_cons_of_mem a (List.mem_cons_self b t))
    rcases hA with rfl | rfl <;> rcases hB with rfl | rfl
    · -- 0 :: 0 :: t — both index lists are shifted copies from the tail
      rw [risingIdx_cons₂] at hr
      rw [fallingIdx_cons₂] at hf
      simp [Option.map_eq_some'] at hr hf
      obtain ⟨r', hr', hrr⟩ := hr
      obtain ⟨f', hf', hff⟩ := hf
      have ih := head_edge_order (0 :: t) (binary_tail hb) r' hr' f' hf'
      have h1 := ih.1 List.head?_cons
      exact ⟨fun _ => by omega, fun h => by simp at h⟩
    · -- 0 :: 1 :: t — index 0 is a rising edge
      rw [risingIdx_cons₂] at hr
      rw [fallingIdx_cons₂] at hf
      simp [Option.map_eq_some'] at hr hf
      obtain ⟨f', hf', hff⟩ := hf
      have hf0 : 0 ≤ f' :=
        nonzeroIdx_nonneg _ _ f' (mem_of_head?_eq_some hf')
      exact ⟨fun _ => by omega, fun h => by simp at h⟩
    · -- 1 :: 0 :: t — index 0 is a falling edge
      rw [risingIdx_cons₂] at hr
      rw [fallingIdx_cons₂] at hf
      simp [Option.map_eq_some'] at hr hf
      obtain ⟨r', hr', hrr⟩ := hr
      have hr0 : 0 ≤ r' :=
        nonzeroIdx_nonneg _ _ r' (mem_of_head?_eq_some hr')
      exact ⟨fun h => by simp at h, fun _ => by omega⟩
    · -- 1 :: 1 :: t
      rw [risingIdx_cons₂] at hr
      rw [fallingIdx_cons₂] at hf
      simp [Option.map_eq_some'] at hr hf
      obtain ⟨r', hr', hrr⟩ := hr
      obtain ⟨f', hf', hff⟩ := hf
      have ih := head_edge_order (1 :: t) (binary_tail hb) r' hr' f' hf'
      have h2 := ih.2 List.head?_cons
      exact ⟨fun h => by simp at h, fun _ => by omega⟩

/-- Edge order at the end: when the data ends OFF the last edge is falling,
when it ends ON the last edge is rising. -/
theorem last_edge_order : ∀ (l : List Int), Binary l →
    ∀ r, (risingIdx l).getLast? = some r → ∀ f, (fallingIdx l).getLast? = some f →
      (l.getLast? = some 0 → r < f) ∧ (l.getLast? = some 1 → f < r)
  | [] => by
    intro _ r hr
    simp [risingIdx, npDiff, nonzeroIdx] at hr
  | [a] => by
    intro _ r hr
    simp [risingIdx, npDiff, nonzeroIdx] at hr
  | a :: b :: t => by
    intro hb r hr f hf
    have hA : a = 0 ∨ a = 1 := hb a (List.mem_cons_self a _)
    have hB : b = 0 ∨ b = 1 := hb b (List.mem_cons_of_mem a (List.mem_cons_self b t))
    rw [List.getLast?_cons_cons]
    rcases hA with rfl | rfl <;> rcases hB with rfl | rfl
    · -- 0 :: 0 :: t — both index lists are shifted copies from the tail
      have hru : risingIdx (0 :: 0 :: t) = (risingIdx (0 :: t)).map (· + 1) := rfl
      have hfu : fallingIdx (0 :: 0 :: t) = (fallingIdx (0 :: t)).map (· + 1) := rfl
      rw [hru, List.getLast?_map] at hr
      rw [hfu, List.getLast?_map] at hf
      obtain ⟨r', hr', hrr⟩ := Option.map_eq_some'.mp hr
      obtain ⟨f', hf', hff⟩ := Option.map_eq_some'.mp hf
      have ih := last_edge_order (0 :: t) (binary_tail hb) r' hr' f' hf'
      exact ⟨fun h => by have := ih.1 h; omega, fun h => by have := ih.2 h; omega⟩
    · -- 0 :: 1 :: t — index 0 is a rising edge, prepended to the shifted list
      have hru : risingIdx (0 :: 1 :: t) = 0 :: (risingIdx (1 :: t)).map (· + 1) := rfl
      have hfu : fallingIdx (0 :: 1 :: t) = (fallingIdx (1 :: t)).map (· + 1) := rfl
      rw [hfu, List.getLast?_map] at hf
      obtain ⟨f', hf', hff⟩ := Option.map_eq_some'.mp hf
      rw [hru] at hr
      cases hR : risingIdx (1 :: t) with
      | nil =>
        rw [hR] at hr
        simp at hr
        have hbal := length_rising_balance (1 :: t) (binary_tail hb)
        rw [hR] at hbal
        have hhead : headBit (1 :: t) = 1 := by simp [headBit]
        constructor
        · intro _
          have hf0 : 0 ≤ f' := nonzeroIdx_nonneg _ _ f' (mem_of_getLast?_eq_some hf')
          omega
        · intro hlast
          have hlb : lastBit (1 :: t) = 1 := by simp [lastBit, hlast]
          have hFne : fallingIdx (1 :: t) ≠ [] := by
            intro hnil
            rw [hnil] at hf'
            cases hf'
          rw [List.length_nil, hhead, hlb] at hbal
          have hzero : (fallingIdx (1 :: t)).length = 0 := by omega
          exact absurd (List.length_eq_zero.mp hzero) hFne
      | cons x xs =>
        rw [hR, List.map_cons, List.getLast?_cons_cons] at hr
        have hr2 : (List.map (fun y : Int => y + 1) (x :: xs)).getLast? = some r := hr
        rw [List.getLast?_map] at hr2
        obtain ⟨r', hr', hrr⟩ := Option.map_eq_some'.mp hr2
        rw [← hR] at hr'
        have ih := last_edge_order (1 :: t) (binary_tail hb) r' hr' f' hf'
        exact ⟨fun h => by have := ih.1 h; omega, fun h => by have := ih.2 h; omega⟩
    · -- 1 :: 0 :: t — index 0 is a falling edge, prepended to the shifted list
      have hru : risingIdx (1 :: 0 :: t) = (risingIdx (0 :: t)).map (· + 1) := rfl
      have hfu : fallingIdx (1 :: 0 :: t) = 0 :: (fallingIdx (0 :: t)).map (· + 1) := rfl
      rw [hru, List.getLast?_map] at hr
      obtain ⟨r', hr', hrr⟩ := Option.map_eq_some'.mp hr
      rw [hfu] at hf
      cases hF : fallingIdx (0 :: t) with
      | nil =>
        rw [hF] at hf
        simp at hf
        have hbal := length_rising_balance (0 :: t) (binary_tail hb)
        rw [hF] at hbal
        have hhead : headBit (0 :: t) = 0 := by simp [headBit]
        constructor
        · intro hlast
          have hlb : lastBit (0 :: t) = 0 := by simp [lastBit, hlast]
          have hRne : risingIdx (0 :: t) ≠ [] := by
            intro hnil
            rw [hnil] at hr'
            cases hr'
          rw [List.length_nil, hhead, hlb] at hbal
          have hzero : (risingIdx (0 :: t)).length = 0 := by omega
          exact absurd (List.length_eq_zero.mp hzero) hRne
        · intro _
          have hr0 : 0 ≤ r' := nonzeroIdx_nonneg _ _ r' (mem_of_getLast?_eq_some hr')
          omega
      | cons x xs =>
        rw [hF, List.map_cons, List.getLast?_cons_cons] at hf
        have hf2 : (List.map (fun y : Int => y + 1) (x :: xs)).getLast? = some f := hf
        rw [List.getLast?_map] at hf2
        obtain ⟨f', hf', hff⟩ := Option.map_eq_some'.mp hf2
        rw [← hF] at hf'
        have ih := last_edge_order (0 :: t) (binary_tail hb) r' hr' f' hf'
        exact ⟨fun h => by have := ih.1 h; omega, fun h => by have := ih.2 h; omega⟩
    · -- 1 :: 1 :: t
      have hru : risingIdx (1 :: 1 :: t) = (risingIdx (1 :: t)).map (· + 1) := rfl
      have hfu : fallingIdx (1 :: 1 :: t) = (fallingIdx (1 :: t)).map (· + 1) := rfl
      rw [hru, List.getLast?_map] at hr
      rw [hfu, List.getLast?_map] at hf
      obtain ⟨r', hr', hrr⟩ := Option.map_eq_some'.mp hr
      obtain ⟨f', hf', hff⟩ := Option.map_eq_some'.mp hf
      have ih := last_edge_order (1 :: t) (binary_tail hb) r' hr' f' hf'
      exact ⟨fun h => by have := ih.1 h; omega, fun h => by have := ih.2 h; omega⟩

/-- Core facts about `_on_off_samples` on binary data that has at least one
rising and one falling edge: the start/end fixups fire exactly when the data
starts/ends in the ON state, the fixed index lists end up with equal lengths,
and the method returns the element-wise difference arrays. -/
theorem onOff_core (data : List Int) (hb : Binary data)
    (hr : risingIdx data ≠ []) (hf : fallingIdx data ≠ []) :
    (fixedRising data).length = (fixedFalling data).length ∧
    (data.head? = some 0 → fixedRising data = risingIdx data) ∧
    (data.head? = some 1 → fixedRising data = -1 :: risingIdx data) ∧
    (data.getLast? = some 0 → fixedFalling data = fallingIdx data) ∧
    (data.getLast? = some 1 →
      fixedFalling data = fallingIdx data ++ [(data.length : Int) - 1]) ∧
    onOffSamples data = Except.ok
      (List.zipWith (fun f r => f - r) (fixedFalling data) (fixedRising data),
       List.zipWith (fun r f => r - f) (fixedRising data).tail
         (fixedFalling data).dropLast) ∧
    fixedRising data ≠ [] := by
  obtain ⟨rh, hrh⟩ := exists_head?_of_ne_nil hr
  obtain ⟨fh, hfh⟩ := exists_head?_of_ne_nil hf
  obtain ⟨rl, hrl⟩ := exists_getLast?_of_ne_nil hr
  obtain ⟨fl, hfl⟩ := exists_getLast?_of_ne_nil hf
  have hd : data ≠ [] := fun h => hr (by rw [h]; rfl)
  obtain ⟨a, ha⟩ := exists_head?_of_ne_nil hd
  obtain ⟨z, hz⟩ := exists_getLast?_of_ne_nil hd
  have ha_bin : a = 0 ∨ a = 1 := hb a (mem_of_head?_eq_some ha)
  have hz_bin : z = 0 ∨ z = 1 := hb z (mem_of_getLast?_eq_some hz)
  have hfixR : fixedRising data =
      if fh < rh then -1 :: risingIdx data else risingIdx data := by
    unfold fixedRising
    rw [hrh, hfh]
  have hfixF : fixedFalling data =
      if (fixedRising data).getLastD 0 > (fallingIdx data).getLastD 0 then
        fallingIdx data ++ [(data.length : Int) - 1]
      else fallingIdx data := by
    unfold fixedFalling
    rw [hrh, hfh]
  have hrun : onOffSamples data =
      if (fixedRising data).length = (fixedFalling data).length then
        Except.ok (List.zipWith (fun f r => f - r) (fixedFalling data) (fixedRising data),
          List.zipWith (fun r f => r - f) (fixedRising data).tail
            (fixedFalling data).dropLast)
      else Except.error PyError.valueError := by
    unfold onOffSamples
    rw [hrh, hfh]
  have hstart : (data.head? = some 0 ∧ fixedRising data = risingIdx data) ∨
      (data.head? = some 1 ∧ fixedRising data = -1 :: risingIdx data) := by
    rcases ha_bin with rfl | rfl
    · have h1 := (head_edge_order data hb rh hrh fh hfh).1 ha
      exact Or.inl ⟨ha, by rw [hfixR, if_neg (by omega)]⟩
    · have h1 := (head_edge_order data hb rh hrh fh hfh).2 ha
      exact Or.inr ⟨ha, by rw [hfixR, if_pos h1]⟩
  have hfixRlast : (fixedRising data).getLastD 0 = rl := by
    rw [hfixR]
    split
    · rw [List.getLastD_cons]
      exact getLastD_of_getLast?_eq_some hrl (-1)
    · exact getLastD_of_getLast?_eq_some hrl 0
  have hend : (data.getLast? = some 0 ∧ fixedFalling data = fallingIdx data) ∨
      (data.getLast? = some 1 ∧
        fixedFalling data = fallingIdx data ++ [(data.length : Int) - 1]) := by
    rcases hz_bin with rfl | rfl
    · have h1 := (last_edge_order data hb rl hrl fl hfl).1 hz
      refine Or.inl ⟨hz, ?_⟩
      rw [hfixF, if_neg]
      rw [hfixRlast, getLastD_of_getLast?_eq_some hfl 0]
      omega
    · have h1 := (last_edge_order data hb rl hrl fl hfl).2 hz
      refine Or.inr ⟨hz, ?_⟩
      rw [hfixF, if_pos]
      rw [hfixRlast, getLastD_of_getLast?_eq_some hfl 0]
      omega
  have hbal := length_rising_balance data hb
  have hlen : (fixedRising data).length = (fixedFalling data).length := by
    rcases hstart with ⟨ha', he⟩ | ⟨ha', he⟩ <;> rcases hend with ⟨hz', hfe⟩ | ⟨hz', hfe⟩
    · rw [headBit_eq_zero ha', lastBit_eq_zero hz'] at hbal
      rw [he, hfe]
      omega
    · rw [headBit_eq_zero ha', lastBit_eq_one hz'] at hbal
      rw [he, hfe]
      simp only [List.length_append, List.length_singleton, List.length_cons,
        List.length_nil]
      omega
    · rw [headBit_eq_one ha', lastBit_eq_zero hz'] at hbal
      rw [he, hfe]
      simp only [List.length_cons]
      omega
    · rw [headBit_eq_one ha', lastBit_eq_one hz'] at hbal
      rw [he, hfe]
      simp only [List.length_cons, List.length_append, List.length_singleton,
        List.length_nil]
      omega
  have hrne : fixedRising data ≠ [] := by
    rcases hstart with ⟨_, he⟩ | ⟨_, he⟩
    · rw [he]
      exact hr
    · rw [he]
      simp
  refine ⟨hlen, ?_, ?_, ?_, ?_, by rw [hrun, if_pos hlen], hrne⟩
  · intro h
    rcases hstart with ⟨_, he⟩ | ⟨ha1, he⟩
    · exact he
    · rw [ha1] at h
      simp at h
  · intro h
    rcases hstart with ⟨ha0, he⟩ | ⟨_, he⟩
    · rw [ha0] at h
      simp at h
    · exact he
  · intro h
    rcases hend with ⟨_, he⟩ | ⟨hz1, he⟩
    · exact he
    · rw [hz1] at h
      simp at h
  · intro h
    rcases hend with ⟨hz0, he⟩ | ⟨_, he⟩
    · rw [hz0] at h
      simp at h
    · exact he

/-! ## Theorems for the claims -/

/-- C4: for every binary keying sequence with at least one rising and at least
one falling edge, `_on_off_samples` succeeds and the returned
`(on_samples, off_samples)` arrays have lengths differing by at most 1. -/
theorem c4_on_off_lengths (data : List Int) (hb : Binary data)
    (hr : risingIdx data ≠ []) (hf : fallingIdx data ≠ []) :
    ∃ onS offS, onOffSamples data = Except.ok (onS, offS) ∧
      onS.length ≤ offS.length + 1 ∧ offS.length ≤ onS.length + 1 := by
  obtain ⟨hlen, _, _, _, _, hrun, hrne⟩ := onOff_core data hb hr hf
  have hpos : 0 < (fixedRising data).length := List.length_pos.mpr hrne
  refine ⟨_, _, hrun, ?_, ?_⟩ <;>
      simp only [List.length_zipWith, List.length_tail, List.length_dropLast] <;>
    omega

/-- C4 instantiated at the keying sequence `[1, 0, 1]`, which has one rising
and one falling edge: the ON lengths `[1, 1]` and OFF lengths `[1]` differ in
count by one. -/
theorem c4_on_off_lengths_witness :
    Binary [1, 0, 1] ∧ risingIdx [1, 0, 1] ≠ [] ∧ fallingIdx [1, 0, 1] ≠ [] ∧
    ∃ onS offS, onOffSamples [1, 0, 1] = Except.ok (onS, offS) ∧
      onS.length ≤ offS.length + 1 ∧ offS.length ≤ onS.length + 1 :=
  ⟨by decide, by decide, by decide,
    c4_on_off_lengths [1, 0, 1] (by decide) (by decide) (by decide)⟩

/-- C5: with at least one transition of each direction, a sequence that starts
in the ON state gets a synthetic rising edge at position −1, one that ends in
the ON state gets a synthetic falling edge at the last valid index
`len(data) − 1`, the ON-run array is the element-wise difference
`falling_idx − rising_idx` of the paired fixed edge lists, and the method
succeeds (no missing-edge IndexError) even when the signal starts and ends
mid-tone. -/
theorem c5_synthetic_edges (data : List Int) (hb : Binary data)
    (hr : risingIdx data ≠ []) (hf : fallingIdx data ≠ []) :
    (data.head? = some 1 → fixedRising data = -1 :: risingIdx data) ∧
    (data.getLast? = some 1 →
      fixedFalling data = fallingIdx data ++ [(data.length : Int) - 1]) ∧
    onOffSamples data = Except.ok
      (List.zipWith (fun f r => f - r) (fixedFalling data) (fixedRising data),
       List.zipWith (fun r f => r - f) (fixedRising data).tail
         (fixedFalling data).dropLast) := by
  obtain ⟨_, _, h1, _, h2, hrun, _⟩ := onOff_core data hb hr hf
  exact ⟨h1, h2, hrun⟩

/-- C5 instantiated at `[1, 0, 1]`, a signal that starts and ends mid-tone:
both synthetic edges are inserted and the run lengths are computed from them. -/
theorem c5_synthetic_edges_witness :
    Binary [1, 0, 1] ∧ risingIdx [1, 0, 1] ≠ [] ∧ fallingIdx [1, 0, 1] ≠ [] ∧
    (([1, 0, 1] : List Int).head? = some 1 →
      fixedRising [1, 0, 1] = -1 :: risingIdx [1, 0, 1]) ∧
    (([1, 0, 1] : List Int).getLast? = some 1 →
      fixedFalling [1, 0, 1] = fallingIdx [1, 0, 1] ++ [(([1, 0, 1] : List Int).length : Int) - 1]) ∧
    onOffSamples [1, 0, 1] = Except.ok
      (List.zipWith (fun f r => f - r) (fixedFalling [1, 0, 1]) (fixedRising [1, 0, 1]),
       List.zipWith (fun r f => r - f) (fixedRising [1, 0, 1]).tail
         (fixedFalling [1, 0, 1]).dropLast) :=
  ⟨by decide, by decide, by decide,
    c5_synthetic_edges [1, 0, 1] (by decide) (by decide) (by decide)⟩

/-- C1: decode() never fails merely because decoding is unimplemented — refuted.
The body of `MorseCode.decode` is `raise NotImplementedError()` (morse.py line
59), so on the valid binary keying array `[0, 1, 1, 0, 0, 0, 1, 0]` it raises
NotImplementedError instead of returning a decoded string or one of the errors
of the taxonomy of §7. -/
theorem c1_decode_raises_not_implemented :
    MorseCode.decode ⟨[0, 1, 1, 0, 0, 0, 1, 0]⟩ =
      Except.error PyError.notImplementedError := rfl

/-- C2: one distinct ON-duration magnitude must raise AmbiguousTimingError —
refuted.  No AmbiguousTimingError (nor any raise statement) exists in
`_dash_dot_characters` (morse.py lines 110-135): for the one-magnitude input
`on_samples = [5, 5, 5]`, the KMeans fit yields duplicate centres (5, 5) and a
label array such as `[1, 0, 0]`, and the method returns the dash/dot array
built from those labels instead of raising. -/
theorem c2_one_magnitude_returns_symbols :
    dashDotCharacters ⟨[1, 0, 0], 5, 5⟩ = [some "-", some ".", some "."] := by
  decide

/-- C3 counterexample: `_translate` neither emits an "unrecognized character"
marker nor survives an unknown string.  For the single word `["........"]`
(eight dots, not in the character table) `char_dict.get` yields `None` and the
subsequent `"".join` raises TypeError: the translation crashes. -/
theorem c3_unknown_string_crashes :
    translate morseToChar [["........"]] = Except.error PyError.typeError := rfl

/-- C3 amended: any morse word list containing a dot/dash string that is
missing from the table makes `_translate` raise TypeError — the character is
never silently dropped (the whole translation fails), but no marker is
produced and the translation does crash. -/
theorem c3_unknown_string_always_crashes (table : List (String × String))
    (wordsIn : List (List String))
    (h : ∃ w ∈ wordsIn, ∃ c ∈ w, (dictGet table c).isNone) :
    translate table wordsIn = Except.error PyError.typeError := by
  unfold translate
  rw [if_pos]
  simp only [List.any_eq_true, List.mem_map]
  obtain ⟨w, hw, c, hc, hnone⟩ := h
  exact ⟨w.map (fun j => dictGet table j), ⟨w, hw, rfl⟩,
    dictGet table c, List.mem_map_of_mem _ hc, hnone⟩

/-- C3 amended, instantiated: the word list `[["...", "........"]]` contains an
unknown string, and translation fails with TypeError. -/
theorem c3_unknown_string_crash_witness :
    translate morseToChar [["...", "........"]] = Except.error PyError.typeError :=
  c3_unknown_string_always_crashes morseToChar [["...", "........"]]
    ⟨["...", "........"], by decide, "........", by decide, by decide⟩

/-- C6: character breaks lie exactly at middle-or-largest-cluster positions —
refuted on the code.  `_break_spaces` computes
`intra_space_label = cluster_sort_idx.index(0)` (morse.py line 163), the RANK
of cluster 0 in the centroid argsort, instead of `cluster_sort_idx[0]`, the
label of the smallest-centroid cluster (and similarly `index(2)` at line 171
instead of `cluster_sort_idx[2]`).  Both coincide only when the argsort
permutation is an involution.  For OFF-durations `[1, 5, 30]` clustered as
labels `[1, 2, 0]` with centres `(30, 1, 5)` the argsort is the 3-cycle
`[1, 2, 0]`, and the code returns character breaks `[1, 3]` and word breaks
`[1]`, while the specified middle-or-largest rule gives `[2, 3]` and `[2]`. -/
theorem c6_break_spaces_uses_rank_not_label :
    breakSpaces ⟨[1, 2, 0], 30, 1, 5⟩ = ([1, 3], [1]) ∧
    specBreakSpaces ⟨[1, 2, 0], 30, 1, 5⟩ = ([2, 3], [2]) ∧
    ([1, 3], [1]) ≠ (([2, 3], [2]) : List ℕ × List ℕ) := by
  decide

/-- C7 counterexample: the envelope returned by `smoothed_power` is not
floating-point for integer input, and 64-bit input is narrowed before
squaring.  Line 39 of processing.py ends in `.astype(data.dtype)`, so an
int16 input yields an int16 envelope (as the repository test
`test_smoothed_power_dtype` pins); and since `itemsize` counts bytes, the
promotion of lines 28-31 sends float64 to float32. -/
theorem c7_dtype_not_widened :
    smoothedPowerDtype NpDType.int16 = NpDType.int16 ∧
    NpDType.isFloating (smoothedPowerDtype NpDType.int16) = false ∧
    secureDtype NpDType.float64 = NpDType.float32 ∧
    secureDtype NpDType.int64 = NpDType.int32 := by
  decide

/-- C7 amended: `smoothed_power` always returns the input dtype (integer
envelope for integer input), and the pre-squaring conversion maps every
standard dtype — 64-bit ones included, since `itemsize` is in bytes and is
always `< 32` — to the 32-bit type of its kind, narrowing 64-bit inputs. -/
theorem c7_dtype_flow :
    (∀ d, smoothedPowerDtype d = d) ∧
    secureDtype NpDType.int8 = NpDType.int32 ∧
    secureDtype NpDType.int16 = NpDType.int32 ∧
    secureDtype NpDType.int32 = NpDType.int32 ∧
    secureDtype NpDType.int64 = NpDType.int32 ∧
    secureDtype NpDType.float16 = NpDType.float32 ∧
    secureDtype NpDType.float32 = NpDType.float32 ∧
    secureDtype NpDType.float64 = NpDType.float32 :=
  ⟨fun _ => rfl, by decide⟩

/-- C8 counterexample: a 3-sample signal with a 5-sample smoothing window is a
malformed input ("signal shorter than one smoothing window"), yet
`smoothed_power` does not fail: `np.convolve(..., "valid")` swaps the shorter
operand into the window role and returns a 3-sample envelope, so the pipeline
continues silently. -/
theorem c8_short_signal_not_rejected :
    smoothedPowerValidLen 3 5 = Except.ok 3 := rfl

/-- C8 amended: an empty signal raises ValueError inside `np.convolve`, a
signal with no transitions (all zeros or all ones) raises IndexError at
`falling_idx[0]` / `rising_idx[0]` in `_on_off_samples` — uncaught library
exceptions rather than descriptive conditions — and a non-empty signal shorter
than the smoothing window is not rejected at all: the convolution returns a
`window − len + 1` sample envelope. -/
theorem c8_malformed_input_behaviour :
    smoothedPowerValidLen 0 5 = Except.error PyError.valueError ∧
    onOffSamples [] = Except.error PyError.indexError ∧
    onOffSamples (List.replicate 6 0) = Except.error PyError.indexError ∧
    onOffSamples (List.replicate 6 1) = Except.error PyError.indexError ∧
    ∀ n w : ℕ, 0 < n → n < w → smoothedPowerValidLen n w = Except.ok (w - n + 1) := by
  refine ⟨rfl, rfl, rfl, rfl, ?_⟩
  intro n w hn hw
  unfold smoothedPowerValidLen convolveValidLen
  rw [if_neg (by omega), if_neg (by omega)]
  congr 1
  omega

/-- C8 amended, instantiated at a 3-sample signal and a 5-sample window. -/
theorem c8_malformed_input_witness :
    smoothedPowerValidLen 3 5 = Except.ok (5 - 3 + 1) :=
  c8_malformed_input_behaviour.2.2.2.2 3 5 (by decide) (by decide)

/-- C9: when every morse string of every word is in the character table,
`_translate` joins the translated characters of a word with no separator and
the words with a single space; the empty word list yields the empty string. -/
theorem c9_translate_join_structure (wordsIn : List (List String))
    (h : ∀ w ∈ wordsIn, ∀ c ∈ w, (dictGet morseToChar c).isSome) :
    translate morseToChar wordsIn =
      Except.ok (specJoinTranslation morseToChar wordsIn) ∧
    translate morseToChar [] = Except.ok "" := by
  constructor
  · unfold translate
    rw [if_neg]
    · unfold specJoinTranslation
      simp only [List.map_map, Function.comp_def]
    · simp only [List.any_eq_true, List.mem_map, not_exists, not_and]
      rintro x ⟨w, hw, rfl⟩
      simp only [List.any_eq_true, List.mem_map, not_exists, not_and]
      rintro y ⟨c, hc, rfl⟩
      have := h w hw c hc
      simp [Option.isNone, Option.isSome] at this ⊢
      cases hval : dictGet morseToChar c with
      | none => rw [hval] at this; simp at this
      | some v => simp
  · rfl

/-- C9 instantiated: the HELLO WORLD morse words are all in the table, and the
translation is the space-separated join "HELLO WORLD". -/
theorem c9_translate_join_witness :
    translate morseToChar
        [["....", ".", ".-..", ".-..", "---"], [".--", "---", ".-.", ".-..", "-.."]] =
      Except.ok (specJoinTranslation morseToChar
        [["....", ".", ".-..", ".-..", "---"], [".--", "---", ".-.", ".-..", "-.."]]) ∧
    translate morseToChar [] = Except.ok "" :=
  c9_translate_join_structure
    [["....", ".", ".-..", ".-..", "---"], [".--", "---", ".-.", ".-..", "-.."]]
    (by decide)

/-- C10: with empty character-break and word-break index arrays,
`_morse_words` returns one word holding one morse character, the concatenation
of the whole symbol sequence. -/
theorem c10_no_breaks_single_word (raw : List String) (_hne : raw ≠ []) :
    morseWords raw [] [] = [[String.join raw]] := by
  unfold morseWords pySlice
  simp

/-- C10 instantiated at the symbol array `[".", "-", "."]`. -/
theorem c10_no_breaks_witness :
    ([".", "-", "."] : List String) ≠ [] ∧
      morseWords [".", "-", "."] [] [] = [[".-."]] :=
  ⟨by decide, c10_no_breaks_single_word [".", "-", "."] (by decide)⟩

end MorseDecoder
